import Mathlib

/-!
Verification of the `behalf` utility module (`src/utils.py`).

The module has two independent components:

* a partitioner `split_size(N_parts, N_chunks, i)` computing how many of
  `N_parts` particles go to chunk `i` out of `N_chunks`;
* an energy evaluator (`compute_kinetic_energy`, `compute_potential_energy`,
  `compute_energy`) over parallel arrays of positions, velocities and masses.

Python integers are embedded as `ℤ`, with Python's floor division `//` and
modulo `%` rendered as `Int.fdiv` / `Int.fmod` (Python rounds toward negative
infinity, exactly `fdiv`/`fmod` semantics).  Floating-point data is embedded
as `ℝ`; vectors are `List ℝ` and arrays of vectors `List (List ℝ)`.  The
`assert` statements guarding array shapes make the energy functions fallible,
so they return `Option ℝ`, `none` being the raised `AssertionError`.
-/

namespace Behalf

/-- Embedding of `split_size` from `src/utils.py`:
`return (N_parts // N_chunks) + int((N_parts % N_chunks) > i)`. -/
def split_size (N_parts N_chunks i : ℤ) : ℤ :=
  N_parts.fdiv N_chunks + (if N_parts.fmod N_chunks > i then 1 else 0)

/-- Squared Euclidean distance between two vectors, as computed inside
`compute_potential_energy`: `np.sum((pos[i] - pos[j])**2)` — componentwise
difference, square, then sum. -/
noncomputable def sqDist (p q : List ℝ) : ℝ :=
  ((List.zipWith (fun a b => a - b) p q).map (fun x => x ^ 2)).sum

/-- Pair distance `r = np.sqrt(np.sum((pos[i] - pos[j])**2))` used by the
double loop of `compute_potential_energy`. -/
noncomputable def dist_r (pos : List (List ℝ)) (i j : ℕ) : ℝ :=
  Real.sqrt (sqDist (pos.getD i []) (pos.getD j []))

/-- Accumulated magnitude of the double loop
`for i in range(N_part): for j in range(i+1, N_part): U -= G*mass[i]*mass[j]/r`
of `compute_potential_energy`; the function returns its negation. -/
noncomputable def potential_sum (pos : List (List ℝ)) (mass : List ℝ) (G : ℝ) : ℝ :=
  ∑ i in Finset.range pos.length, ∑ j in Finset.Ico (i + 1) pos.length,
    G * mass.getD i 0 * mass.getD j 0 / dist_r pos i j

/-- Embedding of `compute_potential_energy(pos, mass, G)` from `src/utils.py`.
The `assert mass.shape == (N_part,)` is rendered as the length test; a failed
assertion is `none`. -/
noncomputable def compute_potential_energy (pos : List (List ℝ)) (mass : List ℝ)
    (G : ℝ) : Option ℝ :=
  if mass.length = pos.length then some (-(potential_sum pos mass G)) else none

/-- Magnitude summed by `compute_kinetic_energy`: `np.sum(vel.T**2. * mass)`
squares every velocity component and weights it by the particle's mass
(the broadcast multiplies column `i` of `vel.T**2` by `mass[i]`). -/
noncomputable def kinetic_sum (vel : List (List ℝ)) (mass : List ℝ) : ℝ :=
  (List.zipWith (fun v m => (v.map (fun x => x ^ 2)).sum * m) vel mass).sum

/-- Embedding of `compute_kinetic_energy(vel, mass)` from `src/utils.py`:
`np.sum(vel.T**2. * mass) * 0.5` behind the shape assertion. -/
noncomputable def compute_kinetic_energy (vel : List (List ℝ)) (mass : List ℝ) :
    Option ℝ :=
  if mass.length = vel.length then some (kinetic_sum vel mass * 0.5) else none

/-- Embedding of `compute_energy(pos, vel, mass, G)` from `src/utils.py`:
the sum of potential and kinetic energy; an assertion failure in either
summand propagates. -/
noncomputable def compute_energy (pos vel : List (List ℝ)) (mass : List ℝ)
    (G : ℝ) : Option ℝ :=
  match compute_potential_energy pos mass G, compute_kinetic_energy vel mass with
  | some u, some k => some (u + k)
  | _, _ => none

/-- Division as performed by the float runtime inside the potential-energy
loop: a zero denominator is an arithmetic fault (IEEE `inf`/`NaN`), modelled
as `none`; any other denominator gives the real quotient. -/
noncomputable def divF (x y : ℝ) : Option ℝ :=
  if y = 0 then none else some (x / y)

/-- Fault-propagating sum: adding a faulted (non-finite) term keeps the
accumulator faulted, exactly as `U -= inf` stays non-finite in floats. -/
noncomputable def osum : List (Option ℝ) → Option ℝ
  | [] => some 0
  | x :: xs =>
    match x, osum xs with
    | some a, some b => some (a + b)
    | _, _ => none

/-- Fault-tracking rendering of the double loop of `compute_potential_energy`:
the same iteration space `i ∈ range N`, `j ∈ range(i+1, N)` and the same
per-pair division, but with the division-by-zero fault made explicit instead
of living in the float values. -/
noncomputable def potential_sumE (pos : List (List ℝ)) (mass : List ℝ) (G : ℝ) :
    Option ℝ :=
  osum ((List.range pos.length).map (fun i =>
    osum (((List.range pos.length).drop (i + 1)).map (fun j =>
      divF (G * mass.getD i 0 * mass.getD j 0) (dist_r pos i j)))))

/-- Fault-tracking rendering of `compute_potential_energy`: shape assertion,
then the negated accumulated sum, with any division-by-zero fault (coincident
particles) surfacing as `none` instead of a non-finite float. -/
noncomputable def compute_potential_energyE (pos : List (List ℝ)) (mass : List ℝ)
    (G : ℝ) : Option ℝ :=
  if mass.length = pos.length then (potential_sumE pos mass G).map (fun u => -u)
  else none

/-- For a positive chunk count the Python remainder is nonnegative. -/
lemma fmod_nonneg_of_pos (N C : ℤ) (hC : 1 ≤ C) : 0 ≤ N.fmod C := by
  rw [Int.fmod_eq_emod _ (by omega)]
  exact Int.emod_nonneg _ (by omega)

/-- For a positive chunk count the Python remainder is below the divisor. -/
lemma fmod_lt_of_pos (N C : ℤ) (hC : 1 ≤ C) : N.fmod C < C := by
  rw [Int.fmod_eq_emod _ (by omega)]
  exact Int.emod_lt_of_pos _ (by omega)

/-- Python floor division by a positive count agrees with the rational floor. -/
lemma fdiv_eq_floor (N C : ℤ) (hC : 1 ≤ C) :
    N.fdiv C = ⌊(N : ℚ) / (C : ℚ)⌋ := by
  have hCnat : ((C.toNat : ℤ) : ℚ) = (C : ℚ) := by
    rw [Int.toNat_of_nonneg (by omega)]
  have h := Rat.floor_intCast_div_natCast N C.toNat
  rw [Int.fdiv_eq_ediv _ (by omega)]
  rw [show ((C.toNat : ℚ)) = ((C.toNat : ℤ) : ℚ) by push_cast; ring] at h
  rw [hCnat] at h
  rw [h, Int.toNat_of_nonneg (by omega)]

/-- C1: partition completeness.  For `N_parts ≥ 0` and `N_chunks ≥ 1`, summing
`split_size N_parts N_chunks i` over `i = 0 .. N_chunks - 1` equals `N_parts`;
moreover `split_size 0 5 0 = 0` and every chunk of an empty partition gets 0. -/
theorem C1_partition_completeness (N C : ℤ) (hN : 0 ≤ N) (hC : 1 ≤ C) :
    (∑ i in Finset.range C.toNat, split_size N C (i : ℤ)) = N ∧
    split_size 0 5 0 = 0 ∧
    (∀ i : ℤ, 0 ≤ i → split_size 0 5 i = 0) := by
  refine ⟨?_, by decide, ?_⟩
  · have hr0 : 0 ≤ N.fmod C := fmod_nonneg_of_pos N C hC
    have hrC : N.fmod C < C := fmod_lt_of_pos N C hC
    unfold split_size
    rw [Finset.sum_add_distrib, Finset.sum_const, Finset.sum_boole]
    have hfilter :
        Finset.filter (fun i : ℕ => N.fmod C > (i : ℤ)) (Finset.range C.toNat)
          = Finset.range (N.fmod C).toNat := by
      ext x
      simp only [Finset.mem_filter, Finset.mem_range, gt_iff_lt]
      omega
    rw [hfilter]
    simp only [Finset.card_range]
    rw [nsmul_eq_mul]
    have hid : C * (N.fdiv C) + N.fmod C = N := by
      rw [Int.fdiv_eq_ediv _ (by omega), Int.fmod_eq_emod _ (by omega)]
      exact Int.ediv_add_emod N C
    have h1 : ((C.toNat : ℤ)) = C := Int.toNat_of_nonneg (by omega)
    have h2 : (((N.fmod C).toNat : ℤ)) = N.fmod C := Int.toNat_of_nonneg hr0
    rw [h1, h2]
    linarith [hid]
  · intro i hi
    unfold split_size
    simp only [Int.zero_fdiv, Int.zero_fmod, gt_iff_lt, zero_add]
    rw [if_neg (by omega)]

/-- C1 witness: completeness at `N_parts = 7`, `N_chunks = 3`. -/
theorem C1_partition_completeness_witness :
    (0 : ℤ) ≤ 7 ∧ (1 : ℤ) ≤ 3 ∧
    ((∑ i in Finset.range (3 : ℤ).toNat, split_size 7 3 (i : ℤ)) = 7 ∧
     split_size 0 5 0 = 0 ∧
     (∀ i : ℤ, 0 ≤ i → split_size 0 5 i = 0)) :=
  ⟨by decide, by decide, C1_partition_completeness 7 3 (by decide) (by decide)⟩

/-- C2: partition fairness.  Every in-range chunk gets `floor` or `floor + 1`
particles; it gets `floor + 1` exactly when its index is below the remainder
`N_parts mod N_chunks`, and `floor` exactly otherwise, so any two chunk sizes
differ by at most 1. -/
theorem C2_partition_fairness (N C : ℤ) (hN : 0 ≤ N) (hC : 1 ≤ C) :
    (∀ i : ℤ, 0 ≤ i → i < C →
      split_size N C i = N.fdiv C ∨ split_size N C i = N.fdiv C + 1) ∧
    (∀ i : ℤ, 0 ≤ i → i < C →
      (split_size N C i = N.fdiv C + 1 ↔ i < N.fmod C)) ∧
    (∀ i : ℤ, 0 ≤ i → i < C →
      (split_size N C i = N.fdiv C ↔ N.fmod C ≤ i)) ∧
    (∀ i j : ℤ, 0 ≤ i → i < C → 0 ≤ j → j < C →
      split_size N C i - split_size N C j ≤ 1) := by
  refine ⟨?_, ?_, ?_, ?_⟩
  · intro i _ _
    unfold split_size
    by_cases h : N.fmod C > i
    · right; rw [if_pos h]
    · left; rw [if_neg h]; ring
  · intro i _ _
    unfold split_size
    by_cases h : N.fmod C > i
    · rw [if_pos h]; exact ⟨fun _ => h, fun _ => rfl⟩
    · rw [if_neg h]
      constructor
      · intro heq; omega
      · intro hlt; exact absurd hlt h
  · intro i _ _
    unfold split_size
    by_cases h : N.fmod C > i
    · rw [if_pos h]
      constructor
      · intro heq; omega
      · intro hle; omega
    · rw [if_neg h]
      constructor
      · intro _; omega
      · intro _; ring
  · intro i j _ _ _ _
    unfold split_size
    by_cases hi : N.fmod C > i <;> by_cases hj : N.fmod C > j <;>
      simp only [if_pos, if_neg, hi, hj, if_true, if_false] <;> omega

/-- C2 witness: fairness at `N_parts = 7`, `N_chunks = 3`. -/
theorem C2_partition_fairness_witness :
    (0 : ℤ) ≤ 7 ∧ (1 : ℤ) ≤ 3 ∧
    ((∀ i : ℤ, 0 ≤ i → i < 3 →
        split_size 7 3 i = (7 : ℤ).fdiv 3 ∨
        split_size 7 3 i = (7 : ℤ).fdiv 3 + 1) ∧
     (∀ i : ℤ, 0 ≤ i → i < 3 →
        (split_size 7 3 i = (7 : ℤ).fdiv 3 + 1 ↔ i < (7 : ℤ).fmod 3)) ∧
     (∀ i : ℤ, 0 ≤ i → i < 3 →
        (split_size 7 3 i = (7 : ℤ).fdiv 3 ↔ (7 : ℤ).fmod 3 ≤ i)) ∧
     (∀ i j : ℤ, 0 ≤ i → i < 3 → 0 ≤ j → j < 3 →
        split_size 7 3 i - split_size 7 3 j ≤ 1)) :=
  ⟨by decide, by decide, C2_partition_fairness 7 3 (by decide) (by decide)⟩

/-- C3: the chunk-size formula.  `split_size` returns the rational floor of
`N_parts / N_chunks`, plus 1 exactly when the remainder exceeds the chunk
index; concretely `split_size 1000 11 0 = 91` and `split_size 1000 11 10 = 90`. -/
theorem C3_chunk_size_formula (N C k : ℤ) (hN : 0 ≤ N) (hC : 1 ≤ C)
    (hk : 0 ≤ k) :
    split_size N C k = ⌊(N : ℚ) / (C : ℚ)⌋ + (if N % C > k then 1 else 0) ∧
    split_size 1000 11 0 = 91 ∧ split_size 1000 11 10 = 90 := by
  refine ⟨?_, by decide, by decide⟩
  unfold split_size
  rw [fdiv_eq_floor N C hC, Int.fmod_eq_emod _ (by omega)]

/-- C3 witness: the formula at `N_parts = 1000`, `N_chunks = 11`, index 0. -/
theorem C3_chunk_size_formula_witness :
    (0 : ℤ) ≤ 1000 ∧ (1 : ℤ) ≤ 11 ∧ (0 : ℤ) ≤ 0 ∧
    (split_size 1000 11 0
        = ⌊(1000 : ℚ) / (11 : ℚ)⌋ + (if (1000 : ℤ) % 11 > 0 then 1 else 0) ∧
     split_size 1000 11 0 = 91 ∧ split_size 1000 11 10 = 90) :=
  ⟨by decide, by decide, by decide,
   C3_chunk_size_formula 1000 11 0 (by decide) (by decide) (by decide)⟩

/-- C9: out-of-range chunk index.  For any `chunk_index ≥ N_chunks` the
function still returns a value, namely the bare floor with no remainder
bonus. -/
theorem C9_out_of_range_floor (N C k : ℤ) (hN : 0 ≤ N) (hC : 1 ≤ C)
    (hk : C ≤ k) :
    split_size N C k = N.fdiv C ∧ split_size N C k = ⌊(N : ℚ) / (C : ℚ)⌋ := by
  have hlt : N.fmod C < C := fmod_lt_of_pos N C hC
  have hmain : split_size N C k = N.fdiv C := by
    unfold split_size
    rw [if_neg (by omega)]
    ring
  exact ⟨hmain, by rw [hmain, fdiv_eq_floor N C hC]⟩

/-- C9 witness: `split_size 10 3 7` returns the floor value 3. -/
theorem C9_out_of_range_floor_witness :
    (0 : ℤ) ≤ 10 ∧ (1 : ℤ) ≤ 3 ∧ (3 : ℤ) ≤ 7 ∧
    (split_size 10 3 7 = (10 : ℤ).fdiv 3 ∧
     split_size 10 3 7 = ⌊(10 : ℚ) / (3 : ℚ)⌋) :=
  ⟨by decide, by decide, by decide,
   C9_out_of_range_floor 10 3 7 (by decide) (by decide) (by decide)⟩

/-- C10: chunk sizes are monotonically non-increasing in the chunk index,
and drop by at most 1 as the index grows. -/
theorem C10_monotone_chunks (N C : ℤ) (hN : 0 ≤ N) (hC : 1 ≤ C) :
    (∀ i j : ℤ, 0 ≤ i → i ≤ j → split_size N C j ≤ split_size N C i) ∧
    (∀ i j : ℤ, 0 ≤ i → i ≤ j → split_size N C i - split_size N C j ≤ 1) := by
  constructor
  · intro i j _ hij
    unfold split_size
    split_ifs <;> omega
  · intro i j _ _
    unfold split_size
    split_ifs <;> omega

/-- C10 witness: monotonicity at `N_parts = 7`, `N_chunks = 3`. -/
theorem C10_monotone_chunks_witness :
    (0 : ℤ) ≤ 7 ∧ (1 : ℤ) ≤ 3 ∧
    ((∀ i j : ℤ, 0 ≤ i → i ≤ j → split_size 7 3 j ≤ split_size 7 3 i) ∧
     (∀ i j : ℤ, 0 ≤ i → i ≤ j → split_size 7 3 i - split_size 7 3 j ≤ 1)) :=
  ⟨by decide, by decide, C10_monotone_chunks 7 3 (by decide) (by decide)⟩

/-- A list sum is the sum of its entries indexed over `range length`. -/
lemma sum_map_sq (v : List ℝ) :
    (v.map (fun x => x ^ 2)).sum = ∑ k in Finset.range v.length, v.getD k 0 ^ 2 := by
  induction v with
  | nil => simp
  | cons a t ih =>
    simp only [List.map_cons, List.sum_cons, List.length_cons]
    rw [Finset.sum_range_succ']
    simp only [List.getD_cons_succ, List.getD_cons_zero]
    rw [← ih]
    ring

/-- Sum of a binary zip of equal-length lists, as an indexed sum. -/
lemma zipWith_sum_eq (f : List ℝ → ℝ → ℝ) (vel : List (List ℝ)) :
    ∀ mass : List ℝ, mass.length = vel.length →
      (List.zipWith f vel mass).sum
        = ∑ i in Finset.range vel.length, f (vel.getD i []) (mass.getD i 0) := by
  induction vel with
  | nil => intro mass _; simp
  | cons v vs ih =>
    intro mass h
    cases mass with
    | nil => simp at h
    | cons m ms =>
      simp only [List.zipWith_cons_cons, List.sum_cons, List.length_cons]
      rw [Finset.sum_range_succ']
      simp only [List.getD_cons_succ, List.getD_cons_zero]
      rw [← ih ms (by simpa using h)]
      ring

/-- The triangular double sum of the potential-energy loop is the sum over
the set of ordered pairs `(i, j)` with `i < j`, each pair visited once. -/
lemma sum_Ico_eq_sum_pairs (n : ℕ) (f : ℕ → ℕ → ℝ) :
    ∑ i in Finset.range n, ∑ j in Finset.Ico (i + 1) n, f i j
      = ∑ p in (Finset.range n ×ˢ Finset.range n).filter (fun p => p.1 < p.2),
          f p.1 p.2 := by
  rw [Finset.sum_filter, Finset.sum_product]
  refine Finset.sum_congr rfl (fun i _ => ?_)
  have hfil : ∑ j in (Finset.range n).filter (fun j => i < j), f i j
      = ∑ j in Finset.range n, if i < j then f i j else 0 := Finset.sum_filter _ _
  rw [← hfil]
  congr 1
  ext x
  simp only [Finset.mem_Ico, Finset.mem_filter, Finset.mem_range]
  omega

/-- C4: kinetic-energy formula.  When the shapes agree the result is half the
mass-weighted sum of squared velocity components; concretely a particle of
mass 2 with velocity `[3, 4, 0]` has kinetic energy 25, and an empty system
has kinetic energy 0. -/
theorem C4_kinetic_energy (vel : List (List ℝ)) (mass : List ℝ)
    (h : mass.length = vel.length) :
    compute_kinetic_energy vel mass
      = some ((0.5 : ℝ) * ∑ i in Finset.range vel.length,
          mass.getD i 0 * ∑ k in Finset.range (vel.getD i []).length,
            (vel.getD i []).getD k 0 ^ 2) ∧
    compute_kinetic_energy [[3, 4, 0]] [2] = some 25 ∧
    compute_kinetic_energy ([] : List (List ℝ)) ([] : List ℝ) = some 0 := by
  refine ⟨?_, ?_, ?_⟩
  · unfold compute_kinetic_energy
    rw [if_pos h]
    congr 1
    rw [kinetic_sum, zipWith_sum_eq _ vel mass h, mul_comm]
    congr 1
    refine Finset.sum_congr rfl (fun i _ => ?_)
    rw [sum_map_sq]
    ring
  · norm_num [compute_kinetic_energy, kinetic_sum]
  · norm_num [compute_kinetic_energy, kinetic_sum]

/-- C4 witness: the kinetic-energy formula instantiated on the one-particle
system with velocity `[3, 4, 0]` and mass `[2]`. -/
theorem C4_kinetic_energy_witness :
    ([(2 : ℝ)] : List ℝ).length = ([[3, 4, 0]] : List (List ℝ)).length ∧
    (compute_kinetic_energy [[3, 4, 0]] [(2 : ℝ)]
      = some ((0.5 : ℝ) * ∑ i in Finset.range ([[3, 4, 0]] : List (List ℝ)).length,
          ([(2 : ℝ)] : List ℝ).getD i 0
            * ∑ k in Finset.range (([[3, 4, 0]] : List (List ℝ)).getD i []).length,
              (([[3, 4, 0]] : List (List ℝ)).getD i []).getD k 0 ^ 2) ∧
     compute_kinetic_energy [[3, 4, 0]] [2] = some 25 ∧
     compute_kinetic_energy ([] : List (List ℝ)) ([] : List ℝ) = some 0) :=
  ⟨rfl, C4_kinetic_energy [[3, 4, 0]] [(2 : ℝ)] rfl⟩

/-- C5: potential-energy formula.  When the shapes agree the result is the
negated sum over unordered pairs `i < j` (each counted once) of
`G * m_i * m_j / r_ij`; concretely two unit masses at distance 1 with `G = 1`
give `-1`, and systems with at most one particle give `0`. -/
theorem C5_potential_energy (pos : List (List ℝ)) (mass : List ℝ) (G : ℝ)
    (h : mass.length = pos.length) :
    compute_potential_energy pos mass G
      = some (-(∑ p in (Finset.range pos.length ×ˢ Finset.range pos.length).filter
            (fun p => p.1 < p.2),
          G * mass.getD p.1 0 * mass.getD p.2 0 / dist_r pos p.1 p.2)) ∧
    compute_potential_energy [[0, 0, 0], [1, 0, 0]] [1, 1] 1 = some (-1) ∧
    (∀ (p : List ℝ) (m : ℝ), compute_potential_energy [p] [m] G = some 0) ∧
    compute_potential_energy ([] : List (List ℝ)) ([] : List ℝ) G = some 0 := by
  refine ⟨?_, ?_, ?_, ?_⟩
  · unfold compute_potential_energy
    rw [if_pos h]
    congr 2
    rw [potential_sum, sum_Ico_eq_sum_pairs]
  · have hIco12 : Finset.Ico 1 2 = ({1} : Finset ℕ) := by decide
    have hIco22 : Finset.Ico 2 2 = (∅ : Finset ℕ) := by decide
    norm_num [compute_potential_energy, potential_sum, dist_r, sqDist,
      Finset.sum_range_succ, hIco12, hIco22, Real.sqrt_one]
  · intro p m
    simp [compute_potential_energy, potential_sum]
  · simp [compute_potential_energy, potential_sum]

/-- C5 witness: the potential-energy formula instantiated on two unit masses
at distance 1 with `G = 1`. -/
theorem C5_potential_energy_witness :
    ([(1 : ℝ), 1] : List ℝ).length = ([[0, 0, 0], [1, 0, 0]] : List (List ℝ)).length ∧
    (compute_potential_energy [[0, 0, 0], [1, 0, 0]] [(1 : ℝ), 1] 1
      = some (-(∑ p in (Finset.range ([[0, 0, 0], [1, 0, 0]] : List (List ℝ)).length
              ×ˢ Finset.range ([[0, 0, 0], [1, 0, 0]] : List (List ℝ)).length).filter
            (fun p => p.1 < p.2),
          1 * ([(1 : ℝ), 1] : List ℝ).getD p.1 0 * ([(1 : ℝ), 1] : List ℝ).getD p.2 0
            / dist_r [[0, 0, 0], [1, 0, 0]] p.1 p.2)) ∧
     compute_potential_energy [[0, 0, 0], [1, 0, 0]] [1, 1] 1 = some (-1) ∧
     (∀ (p : List ℝ) (m : ℝ), compute_potential_energy [p] [m] 1 = some 0) ∧
     compute_potential_energy ([] : List (List ℝ)) ([] : List ℝ) 1 = some 0) :=
  ⟨rfl, C5_potential_energy [[0, 0, 0], [1, 0, 0]] [(1 : ℝ), 1] 1 rfl⟩

/-- C6: additivity of the total energy.  Whenever both summands evaluate,
`compute_energy` returns exactly their sum, with no extra term. -/
theorem C6_total_energy_additivity (pos vel : List (List ℝ)) (mass : List ℝ)
    (G : ℝ) (u k : ℝ)
    (hu : compute_potential_energy pos mass G = some u)
    (hk : compute_kinetic_energy vel mass = some k) :
    compute_energy pos vel mass G = some (u + k) := by
  unfold compute_energy
  rw [hu, hk]

/-- C6 witness: additivity on the two-particle system at rest, whose total
energy is `-1 + 0`. -/
theorem C6_total_energy_additivity_witness :
    compute_potential_energy [[0, 0, 0], [1, 0, 0]] [1, 1] 1 = some (-1) ∧
    compute_kinetic_energy [[0, 0, 0], [0, 0, 0]] [1, 1] = some 0 ∧
    compute_energy [[0, 0, 0], [1, 0, 0]] [[0, 0, 0], [0, 0, 0]] [1, 1] 1
      = some (-1 + 0) :=
  have hu : compute_potential_energy [[0, 0, 0], [1, 0, 0]] [(1 : ℝ), 1] 1
      = some (-1) :=
    (C5_potential_energy [[0, 0, 0], [1, 0, 0]] [(1 : ℝ), 1] 1 rfl).2.1
  have hk : compute_kinetic_energy [[0, 0, 0], [0, 0, 0]] [(1 : ℝ), 1]
      = some 0 := by
    norm_num [compute_kinetic_energy, kinetic_sum]
  ⟨hu, hk,
   C6_total_energy_additivity [[0, 0, 0], [1, 0, 0]] [[0, 0, 0], [0, 0, 0]]
     [1, 1] 1 (-1) 0 hu hk⟩

/-- C7: the shape assertions raise exactly on a length mismatch.  Each energy
function fails iff the mass array length disagrees with the number of
velocity (resp. position) vectors, and the total energy fails iff the three
lengths are not all equal. -/
theorem C7_shape_mismatch_iff (pos vel : List (List ℝ)) (mass : List ℝ)
    (G : ℝ) :
    (compute_kinetic_energy vel mass = none ↔ mass.length ≠ vel.length) ∧
    (compute_potential_energy pos mass G = none ↔ mass.length ≠ pos.length) ∧
    (compute_energy pos vel mass G = none ↔
      ¬(pos.length = mass.length ∧ vel.length = mass.length)) := by
  refine ⟨?_, ?_, ?_⟩
  · unfold compute_kinetic_energy
    split_ifs with h1 <;> simp [h1]
  · unfold compute_potential_energy
    split_ifs with h1 <;> simp [h1]
  · unfold compute_energy compute_potential_energy compute_kinetic_energy
    split_ifs with h1 h2 <;> simp <;> omega

/-- C8 helper: the squared distance of a vector to itself is zero, so the
pair distance of coincident particles is a zero denominator. -/
lemma sqDist_self (p : List ℝ) : sqDist p p = 0 := by
  induction p with
  | nil => simp [sqDist]
  | cons a t ih =>
    show (a - a) ^ 2 + ((List.zipWith (fun a b => a - b) t t).map
      (fun x => x ^ 2)).sum = 0
    have ht : ((List.zipWith (fun a b => a - b) t t).map
        (fun x => x ^ 2)).sum = 0 := ih
    rw [ht]
    ring

/-- C8 helper: a fault anywhere in the accumulated list faults the sum. -/
lemma osum_eq_none_of_mem {l : List (Option ℝ)} (h : none ∈ l) :
    osum l = none := by
  induction l with
  | nil => cases h
  | cons x xs ih =>
    cases h with
    | head => rfl
    | tail _ hmem =>
      have hx := ih hmem
      show (match x, osum xs with
        | some a, some b => some (a + b)
        | _, _ => none) = none
      rw [hx]
      cases x <;> rfl

/-- C8 helper: every index `j` with `m ≤ j < n` survives dropping the first
`m` elements of `range n`. -/
lemma mem_drop_range {m j n : ℕ} (hm : m ≤ j) (hj : j < n) :
    j ∈ (List.range n).drop m := by
  have hlen : j - m < ((List.range n).drop m).length := by
    simp only [List.length_drop, List.length_range]
    omega
  have h1 : ((List.range n).drop m).get ⟨j - m, hlen⟩ = j := by
    simp only [List.get_eq_getElem, List.getElem_drop, List.getElem_range]
    omega
  rw [← h1]
  exact ((List.range n).drop m).get_mem _ _

/-- C8: coincident particles are unguarded.  If two distinct particle slots
`i < j` hold equal position vectors, the potential-energy loop still reaches
that pair and divides by the zero distance, so the fault-tracking rendering of
`compute_potential_energy` surfaces the arithmetic fault (`none`, the
non-finite float) instead of skipping the pair or substituting a default. -/
theorem C8_coincident_unguarded (pos : List (List ℝ)) (mass : List ℝ) (G : ℝ)
    (i j : ℕ) (h : mass.length = pos.length) (hij : i < j)
    (hj : j < pos.length) (hco : pos.getD i [] = pos.getD j []) :
    compute_potential_energyE pos mass G = none := by
  have hdist : dist_r pos i j = 0 := by
    rw [dist_r, hco, sqDist_self, Real.sqrt_zero]
  have hterm : divF (G * mass.getD i 0 * mass.getD j 0) (dist_r pos i j)
      = none := by
    rw [hdist, divF, if_pos rfl]
  have hjmem : j ∈ (List.range pos.length).drop (i + 1) :=
    mem_drop_range (by omega) hj
  have hrowmem : none ∈ ((List.range pos.length).drop (i + 1)).map
      (fun j' => divF (G * mass.getD i 0 * mass.getD j' 0) (dist_r pos i j')) := by
    have hmm := List.mem_map_of_mem
      (fun j' => divF (G * mass.getD i 0 * mass.getD j' 0) (dist_r pos i j'))
      hjmem
    have hbeta : (fun j' => divF (G * mass.getD i 0 * mass.getD j' 0)
        (dist_r pos i j')) j = none := hterm
    rwa [hbeta] at hmm
  have hrow : osum (((List.range pos.length).drop (i + 1)).map
      (fun j' => divF (G * mass.getD i 0 * mass.getD j' 0) (dist_r pos i j')))
      = none := osum_eq_none_of_mem hrowmem
  have himem : i ∈ List.range pos.length := List.mem_range.mpr (by omega)
  have houtmem : none ∈ (List.range pos.length).map (fun i' =>
      osum (((List.range pos.length).drop (i' + 1)).map
        (fun j' => divF (G * mass.getD i' 0 * mass.getD j' 0)
          (dist_r pos i' j')))) := by
    have hmm := List.mem_map_of_mem (fun i' =>
      osum (((List.range pos.length).drop (i' + 1)).map
        (fun j' => divF (G * mass.getD i' 0 * mass.getD j' 0)
          (dist_r pos i' j')))) himem
    have hbeta : (fun i' =>
        osum (((List.range pos.length).drop (i' + 1)).map
          (fun j' => divF (G * mass.getD i' 0 * mass.getD j' 0)
            (dist_r pos i' j')))) i = none := hrow
    rwa [hbeta] at hmm
  rw [compute_potential_energyE, if_pos h, potential_sumE,
    osum_eq_none_of_mem houtmem]
  rfl

/-- C8 witness: two coincident particles at the origin fault the
potential-energy computation. -/
theorem C8_coincident_unguarded_witness :
    ([(1 : ℝ), 1] : List ℝ).length = ([[0, 0], [0, 0]] : List (List ℝ)).length ∧
    0 < 1 ∧ 1 < ([[0, 0], [0, 0]] : List (List ℝ)).length ∧
    ([[0, 0], [0, 0]] : List (List ℝ)).getD 0 []
      = ([[0, 0], [0, 0]] : List (List ℝ)).getD 1 [] ∧
    compute_potential_energyE [[0, 0], [0, 0]] [(1 : ℝ), 1] 1 = none :=
  ⟨rfl, Nat.zero_lt_one, by decide, rfl,
   C8_coincident_unguarded [[0, 0], [0, 0]] [(1 : ℝ), 1] 1 0 1 rfl
     Nat.zero_lt_one (by decide) rfl⟩

/-- Dropping the first `m` indices of `range n` leaves `range' m (n - m)`. -/
lemma drop_range_eq (n m : ℕ) : (List.range n).drop m = List.range' m (n - m) := by
  apply List.ext_getElem
  · simp [List.length_drop, List.length_range, List.length_range']
  · intro k h1 h2
    rw [List.getElem_drop, List.getElem_range, List.getElem_range']
    omega

/-- Sum of `f` over the index list `range' m k`, as a `Finset.Ico` sum. -/
lemma map_range'_sum (f : ℕ → ℝ) :
    ∀ k m : ℕ, ((List.range' m k).map f).sum = ∑ j in Finset.Ico m (m + k), f j := by
  intro k
  induction k with
  | zero => intro m; simp
  | succ k ih =>
    intro m
    rw [List.range'_succ]
    simp only [List.map_cons, List.sum_cons]
    rw [ih (m + 1), Finset.sum_eq_sum_Ico_succ_bot (show m < m + (k + 1) by omega) f,
      show m + 1 + k = m + (k + 1) by omega]

/-- When no term of a fault-tracking accumulation faults, the accumulation is
the plain sum of the underlying values. -/
lemma osum_map_some {α : Type} (f : α → Option ℝ) (g : α → ℝ) :
    ∀ l : List α, (∀ a ∈ l, f a = some (g a)) →
      osum (l.map f) = some ((l.map g).sum) := by
  intro l
  induction l with
  | nil => intro _; rfl
  | cons a t ih =>
    intro hf
    have ha := hf a (List.mem_cons_self a t)
    have ht := ih (fun x hx => hf x (List.mem_cons_of_mem a hx))
    show (match f a, osum (t.map f) with
      | some a, some b => some (a + b)
      | _, _ => none) = some (((a :: t).map g).sum)
    rw [ha, ht]
    simp

/-- The fault-tracking rendering of the potential-energy loop agrees with the
plain one whenever no pair distance vanishes: the `Option` layer only makes
the division-by-zero fault observable and changes no value. -/
theorem potential_sumE_agrees (pos : List (List ℝ)) (mass : List ℝ) (G : ℝ)
    (hnz : ∀ i j : ℕ, i < j → j < pos.length → dist_r pos i j ≠ 0) :
    potential_sumE pos mass G = some (potential_sum pos mass G) := by
  have hrows : ∀ i ∈ List.range pos.length,
      (fun i => osum (((List.range pos.length).drop (i + 1)).map
        (fun j => divF (G * mass.getD i 0 * mass.getD j 0) (dist_r pos i j)))) i
        = some ((fun i => ∑ j in Finset.Ico (i + 1) pos.length,
            G * mass.getD i 0 * mass.getD j 0 / dist_r pos i j) i) := by
    intro i hi
    have hiN : i < pos.length := List.mem_range.mp hi
    show osum (((List.range pos.length).drop (i + 1)).map
        (fun j => divF (G * mass.getD i 0 * mass.getD j 0) (dist_r pos i j)))
      = some (∑ j in Finset.Ico (i + 1) pos.length,
          G * mass.getD i 0 * mass.getD j 0 / dist_r pos i j)
    have hterms : ∀ j ∈ List.range' (i + 1) (pos.length - (i + 1)),
        divF (G * mass.getD i 0 * mass.getD j 0) (dist_r pos i j)
          = some (G * mass.getD i 0 * mass.getD j 0 / dist_r pos i j) := by
      intro j hj
      rw [List.mem_range'] at hj
      obtain ⟨t, ht, rfl⟩ := hj
      rw [divF, if_neg]
      intro hzero
      exact hnz i (i + 1 + 1 * t) (by omega) (by omega) hzero
    rw [drop_range_eq, osum_map_some _ _ _ hterms, map_range'_sum,
      show i + 1 + (pos.length - (i + 1)) = pos.length by omega]
  rw [potential_sumE, potential_sum, osum_map_some _ _ _ hrows]
  rw [List.range_eq_range', map_range'_sum, Finset.range_eq_Ico,
    show 0 + pos.length = pos.length by omega]

end Behalf
